import Mathlib

/-!
Verification of the documentation-search subsystem of `symbols_mcp/server.py`.

Text is modelled as `List Char` (one entry per code point, matching Python
string semantics for length, slicing, splitting and substring tests on the
corpus alphabet).  Case folding is embedded by `Char.toLower` per character,
matching `str.lower` on the ASCII range.  The filesystem boundary used by the
skill readers is modelled as a partial map from filenames to file contents.
-/

namespace SymbolsMcp

/-- Text, one entry per code point. -/
abbrev Str := List Char

/-- Embeds `s.lower()` (per-character case folding). -/
def lowerStr (s : Str) : Str := s.map Char.toLower

/-- Embeds the Python substring test `sub in s`. -/
def containsSub (s sub : Str) : Bool := decide (sub <:+: s)

/-- The newline character used by `content.split("\n")`. -/
def nlChar : Char := Char.ofNat 10

/-- The apostrophe character appearing in the textual messages. -/
def squote : Char := Char.ofNat 39

/-- The path separator used when a skill path is rendered in a message. -/
def sepChar : Char := Char.ofNat 47

/-- Embeds line 84: `[w for w in re.split(r"\s+", query.lower()) if len(w) > 2]`.
Splitting at every whitespace character differs from splitting on whitespace
runs only by interspersed empty tokens, all of which the length filter
removes, so the filtered token list coincides with the Python one. -/
def wsTokens (q : Str) : List Str :=
  ((lowerStr q).splitOnP (fun c => c.isWhitespace)).filter (fun w => decide (2 < w.length))

/-- Embeds lines 84-86: the keyword list with its fallback to the whole
case-folded query. -/
def tokenize (q : Str) : List Str :=
  if wsTokens q = [] then [lowerStr q] else wsTokens q

/-- A corpus document: filename and full text. -/
structure Document where
  name : Str
  content : Str
deriving DecidableEq

/-- One serialized search result record `{file, snippet}`. -/
structure MatchEntry where
  file : Str
  snippet : Str
deriving DecidableEq

/-- Embeds line 92: `any(kw in content_lower for kw in keywords)` over the
whole (case-folded) document text. -/
def docGate (keywords : List Str) (content : Str) : Bool :=
  keywords.any (fun kw => containsSub (lowerStr content) kw)

/-- Embeds line 97: `any(kw in line_lower for kw in keywords)`. -/
def lineMatches (keywords : List Str) (line : Str) : Bool :=
  keywords.any (fun kw => containsSub (lowerStr line) kw)

/-- Embeds line 94: `content.split("\n")`. -/
def docLines (content : Str) : List Str := content.splitOn nlChar

/-- Embeds lines 98-100: `"\n".join(lines[max(0, i - 2):min(len(lines), i + 20)])`
(natural subtraction gives the `max(0, i - 2)` clamp). -/
def snippetOf (lines : List Str) (i : Nat) : Str :=
  List.intercalate [nlChar] ((lines.take (min lines.length (i + 20))).drop (i - 2))

/-- Embeds the inner loop of lines 95-102: the record appended for a document,
if some line matches (the loop stops at the first matching line). -/
def docMatch (keywords : List Str) (d : Document) : Option MatchEntry :=
  match (docLines d.content).findIdx? (lineMatches keywords) with
  | some i => some ⟨d.name, snippetOf (docLines d.content) i⟩
  | none => none

/-- `results` after one document has been processed. -/
def appendMatch (results : List MatchEntry) (m : Option MatchEntry) : List MatchEntry :=
  match m with
  | some e => results ++ [e]
  | none => results

/-- Embeds the loop of lines 88-104.  A document failing the gate is skipped
by `continue`, which also skips the limit check; a document passing the gate
falls through to `if len(results) >= max_results: break`. -/
def searchLoop (keywords : List Str) (maxResults : Int) :
    List Document → List MatchEntry → List MatchEntry
  | [], results => results
  | d :: ds, results =>
    if docGate keywords d.content = false then
      searchLoop keywords maxResults ds results
    else
      if maxResults ≤ ((appendMatch results (docMatch keywords d)).length : Int) then
        appendMatch results (docMatch keywords d)
      else
        searchLoop keywords maxResults ds (appendMatch results (docMatch keywords d))

/-- The collected match list of a search call. -/
def searchResults (corpus : List Document) (query : Str) (maxResults : Int) : List MatchEntry :=
  searchLoop (tokenize query) maxResults corpus []

/-- Embeds the Python slice `xs[:n]`, including its negative-index semantics. -/
def pySliceTo {α : Type} (xs : List α) (n : Int) : List α :=
  if 0 ≤ n then xs.take n.toNat else xs.take (xs.length - (-n).toNat)

/-- One hexadecimal digit, lowercase, as emitted by `json.dumps`. -/
def hexDigit (n : Nat) : Char :=
  if n < 10 then Char.ofNat (48 + n) else Char.ofNat (87 + n)

/-- Four-digit lowercase hexadecimal rendering used by `\uXXXX` escapes. -/
def hex4 (n : Nat) : Str :=
  [hexDigit (n / 4096 % 16), hexDigit (n / 256 % 16), hexDigit (n / 16 % 16), hexDigit (n % 16)]

/-- Embeds the per-character escaping of `json.dumps` (`ensure_ascii=True`):
printable ASCII other than quote and backslash is literal, the short escapes
cover the usual control characters, and everything else becomes `\uXXXX`,
with surrogate pairs beyond the basic plane. -/
def jsonEscapeChar (c : Char) : Str :=
  let n := c.toNat
  if n = 34 then [Char.ofNat 92, Char.ofNat 34]
  else if n = 92 then [Char.ofNat 92, Char.ofNat 92]
  else if n = 8 then [Char.ofNat 92, Char.ofNat 98]
  else if n = 12 then [Char.ofNat 92, Char.ofNat 102]
  else if n = 10 then [Char.ofNat 92, Char.ofNat 110]
  else if n = 13 then [Char.ofNat 92, Char.ofNat 114]
  else if n = 9 then [Char.ofNat 92, Char.ofNat 116]
  else if 32 ≤ n ∧ n ≤ 126 then [c]
  else if n < 65536 then Char.ofNat 92 :: Char.ofNat 117 :: hex4 n
  else
    (Char.ofNat 92 :: Char.ofNat 117 :: hex4 (55296 + (n - 65536) / 1024)) ++
      (Char.ofNat 92 :: Char.ofNat 117 :: hex4 (56320 + (n - 65536) % 1024))

/-- A JSON string literal for `s`. -/
def jsonEncodeString (s : Str) : Str :=
  Char.ofNat 34 :: (List.flatten (s.map jsonEscapeChar)) ++ [Char.ofNat 34]

/-- One `{file, snippet}` object as laid out by `json.dumps(..., indent=2)`. -/
def jsonEntry (e : MatchEntry) : Str :=
  "  \x7b\n    ".toList ++ jsonEncodeString "file".toList ++ ": ".toList ++
    jsonEncodeString e.file ++ ",\n    ".toList ++ jsonEncodeString "snippet".toList ++
    ": ".toList ++ jsonEncodeString e.snippet ++ "\n  \x7d".toList

/-- Embeds `json.dumps(entries, indent=2)` for a list of `{file, snippet}`
records: `[]` for the empty list, otherwise one object per line block. -/
def jsonDumps (entries : List MatchEntry) : Str :=
  if entries = [] then "[]".toList
  else "[\n".toList ++ List.intercalate ",\n".toList (entries.map jsonEntry) ++ "\n]".toList

/-- Embeds line 108: the no-results message with the original query verbatim. -/
def noResultsMsg (query : Str) : Str :=
  "No results found for ".toList ++ [squote] ++ query ++ [squote] ++
    ". Try a different search term.".toList

/-- Embeds lines 74-108: the full `search_symbols_docs` tool, returning the
serialized text that the caller receives. -/
def search_symbols_docs (corpus : List Document) (query : Str) (maxResults : Int) : Str :=
  if searchResults corpus query maxResults = [] then noResultsMsg query
  else jsonDumps (pySliceTo (searchResults corpus query maxResults) maxResults)

/-- The filesystem boundary of the skills directory: the directory path and a
partial map from filename to file contents (`none` = file absent). -/
structure SkillsFs where
  skillsDir : Str
  file : Str → Option Str

/-- The rendered path `SKILLS_PATH / filename`. -/
def pathOf (fs : SkillsFs) (filename : Str) : Str :=
  fs.skillsDir ++ [sepChar] ++ filename

/-- Embeds lines 39-44 (`_read_skill`): the file text when present, otherwise
the sentinel message naming the missing path.  Total by construction — no
error is ever raised. -/
def _read_skill (fs : SkillsFs) (filename : Str) : Str :=
  match fs.file filename with
  | some content => content
  | none =>
      "Skill file ".toList ++ [squote] ++ filename ++ [squote] ++
        " not found at ".toList ++ pathOf fs filename

/-- The primary instructions filename. -/
def agentFile : Str := "AGENT_INSTRUCTIONS.md".toList

/-- The fallback instructions filename. -/
def claudeFile : Str := "CLAUDE.md".toList

/-- Embeds lines 47-52 (`_load_agent_instructions`). -/
def _load_agent_instructions (fs : SkillsFs) : Str :=
  match fs.file agentFile with
  | some content => content
  | none => _read_skill fs claudeFile

/-- Embeds lines 60-70 (`get_project_rules`). -/
def get_project_rules (fs : SkillsFs) : Str :=
  _load_agent_instructions fs

/-- A concrete skills directory with no files at all. -/
def fsNone : SkillsFs := ⟨"/app/skills".toList, fun _ => none⟩

/-! ### Loop equations and basic invariants -/

theorem searchLoop_nil (kws : List Str) (k : Int) (acc : List MatchEntry) :
    searchLoop kws k [] acc = acc := rfl

theorem searchLoop_cons (kws : List Str) (k : Int) (d : Document) (ds : List Document)
    (acc : List MatchEntry) :
    searchLoop kws k (d :: ds) acc =
      if docGate kws d.content = false then
        searchLoop kws k ds acc
      else
        if k ≤ ((appendMatch acc (docMatch kws d)).length : Int) then
          appendMatch acc (docMatch kws d)
        else
          searchLoop kws k ds (appendMatch acc (docMatch kws d)) := rfl

theorem length_appendMatch (acc : List MatchEntry) (m : Option MatchEntry) :
    (appendMatch acc m).length = acc.length ∨ (appendMatch acc m).length = acc.length + 1 := by
  cases m <;> simp [appendMatch]

/-- The collection loop never grows the result list beyond the limit, as long
as it starts strictly below it. -/
theorem searchLoop_length_le (kws : List Str) (k : Int) :
    ∀ (ds : List Document) (acc : List MatchEntry),
      (acc.length : Int) < k → ((searchLoop kws k ds acc).length : Int) ≤ k := by
  intro ds
  induction ds with
  | nil => intro acc h; rw [searchLoop_nil]; omega
  | cons d ds ih =>
    intro acc h
    rw [searchLoop_cons]
    by_cases hg : docGate kws d.content = false
    · rw [if_pos hg]; exact ih acc h
    · rw [if_neg hg]
      have hlen := length_appendMatch acc (docMatch kws d)
      by_cases hk : k ≤ ((appendMatch acc (docMatch kws d)).length : Int)
      · rw [if_pos hk]; omega
      · rw [if_neg hk]; exact ih _ (by omega)

/-- The loop only appends: the accumulator is a prefix of the outcome. -/
theorem acc_start_searchLoop (kws : List Str) (k : Int) :
    ∀ (ds : List Document) (acc : List MatchEntry), acc <+: searchLoop kws k ds acc := by
  intro ds
  induction ds with
  | nil => intro acc; rw [searchLoop_nil]
  | cons d ds ih =>
    intro acc
    rw [searchLoop_cons]
    by_cases hg : docGate kws d.content = false
    · rw [if_pos hg]; exact ih acc
    · rw [if_neg hg]
      have hpre : acc <+: appendMatch acc (docMatch kws d) := by
        cases h : docMatch kws d <;> simp [appendMatch]
      by_cases hk : k ≤ ((appendMatch acc (docMatch kws d)).length : Int)
      · rw [if_pos hk]; exact hpre
      · rw [if_neg hk]
        exact hpre.trans (ih _)

/-- Early termination: once the loop has reached the limit within `ds`,
appending further documents does not change its outcome. -/
theorem searchLoop_stops (kws : List Str) (k : Int) :
    ∀ (ds : List Document) (acc : List MatchEntry) (suf : List Document),
      (acc.length : Int) < k →
      k ≤ ((searchLoop kws k ds acc).length : Int) →
      searchLoop kws k (ds ++ suf) acc = searchLoop kws k ds acc := by
  intro ds
  induction ds with
  | nil =>
    intro acc suf hlt hge
    rw [searchLoop_nil] at hge
    omega
  | cons d ds ih =>
    intro acc suf hlt hge
    rw [searchLoop_cons] at hge
    rw [List.cons_append, searchLoop_cons, searchLoop_cons]
    by_cases hg : docGate kws d.content = false
    · simp only [if_pos hg] at hge ⊢
      exact ih acc suf hlt hge
    · simp only [if_neg hg] at hge ⊢
      by_cases hk : k ≤ ((appendMatch acc (docMatch kws d)).length : Int)
      · simp only [if_pos hk] at hge ⊢
      · simp only [if_neg hk] at hge ⊢
        exact ih _ suf (by omega) hge

/-- If every document fails the gate, the loop returns its accumulator. -/
theorem searchLoop_of_no_gate (kws : List Str) (k : Int) :
    ∀ (ds : List Document) (acc : List MatchEntry),
      (∀ d ∈ ds, docGate kws d.content = false) →
      searchLoop kws k ds acc = acc := by
  intro ds
  induction ds with
  | nil => intro acc _; exact searchLoop_nil kws k acc
  | cons d ds ih =>
    intro acc h
    rw [searchLoop_cons, if_pos (h d (List.mem_cons_self d ds))]
    exact ih acc (fun d' hd' => h d' (List.mem_cons_of_mem d hd'))

/-! ### Splitting lemmas -/

/-- The head chunk of a split starts the original list. -/
theorem headChunk_start {p : Char → Bool} :
    ∀ (xs : List Char) (h0 : Str) (t : List Str),
      xs.splitOnP p = h0 :: t → h0 <+: xs := by
  intro xs
  induction xs with
  | nil =>
    intro h0 t h
    rw [List.splitOnP_nil] at h
    cases h
    exact ⟨[], rfl⟩
  | cons x xs ih =>
    intro h0 t h
    rw [List.splitOnP_cons] at h
    by_cases hp : p x
    · rw [if_pos hp] at h
      cases h
      exact ⟨x :: xs, rfl⟩
    · rw [if_neg hp] at h
      rcases hsplit : xs.splitOnP p with _ | ⟨h1, t1⟩
      · exact absurd hsplit (List.splitOnP_ne_nil p xs)
      · rw [hsplit] at h
        simp only [List.modifyHead] at h
        obtain ⟨rfl, rfl⟩ := List.cons_eq_cons.mp h
        obtain ⟨t', ht'⟩ := ih h1 t1 hsplit
        exact ⟨t', by rw [List.cons_append, ht']⟩

/-- No element of a chunk of a split satisfies the splitting predicate. -/
theorem chunk_no_sep {p : Char → Bool} :
    ∀ (l : List Char) (chunk : Str), chunk ∈ l.splitOnP p → ∀ c ∈ chunk, p c = false := by
  intro l
  induction l with
  | nil =>
    intro chunk hc c hcc
    rw [List.splitOnP_nil] at hc
    rcases List.mem_singleton.mp hc with rfl
    simp at hcc
  | cons x xs ih =>
    intro chunk hc c hcc
    rw [List.splitOnP_cons] at hc
    by_cases hp : p x
    · rw [if_pos hp] at hc
      rcases List.mem_cons.mp hc with rfl | h2
      · simp at hcc
      · exact ih chunk h2 c hcc
    · rw [if_neg hp] at hc
      rcases hsplit : xs.splitOnP p with _ | ⟨h1, t1⟩
      · exact absurd hsplit (List.splitOnP_ne_nil p xs)
      · rw [hsplit] at hc
        simp only [List.modifyHead] at hc
        rcases List.mem_cons.mp hc with rfl | h2
        · rcases List.mem_cons.mp hcc with rfl | hch
          · simpa using hp
          · exact ih h1 (by rw [hsplit]; exact List.mem_cons_self h1 t1) c hch
        · exact ih chunk (by rw [hsplit]; exact List.mem_cons_of_mem h1 h2) c hcc

/-- Every chunk of a split occurs inside the original list. -/
theorem chunk_within_of_mem {p : Char → Bool} :
    ∀ (l : List Char) (chunk : Str), chunk ∈ l.splitOnP p → chunk <:+: l := by
  intro l
  induction l with
  | nil =>
    intro chunk hc
    rw [List.splitOnP_nil] at hc
    rcases List.mem_singleton.mp hc with rfl
    exact ⟨[], [], rfl⟩
  | cons x xs ih =>
    intro chunk hc
    rw [List.splitOnP_cons] at hc
    by_cases hp : p x
    · rw [if_pos hp] at hc
      rcases List.mem_cons.mp hc with rfl | h2
      · exact ⟨[], x :: xs, rfl⟩
      · obtain ⟨s, t, hst⟩ := ih chunk h2
        exact ⟨x :: s, t, by simp [hst]⟩
    · rw [if_neg hp] at hc
      rcases hsplit : xs.splitOnP p with _ | ⟨h1, t1⟩
      · exact absurd hsplit (List.splitOnP_ne_nil p xs)
      · rw [hsplit] at hc
        simp only [List.modifyHead] at hc
        rcases List.mem_cons.mp hc with rfl | h2
        · obtain ⟨t', ht'⟩ := headChunk_start xs h1 t1 hsplit
          exact ⟨[], t', by rw [List.nil_append, List.cons_append, ht']⟩
        · obtain ⟨s, t, hst⟩ := ih chunk (by rw [hsplit]; exact List.mem_cons_of_mem h1 h2)
          exact ⟨x :: s, t, by simp [hst]⟩

/-! ### Case folding and newlines -/

theorem toNat_Char_ofNat_lt (n : Nat) (h : n < 55296) : (Char.ofNat n).toNat = n := by
  rw [Char.ofNat, dif_pos (Or.inl h)]
  rfl

/-- Case folding fixes exactly the newline character at the newline. -/
theorem toLower_eq_nl_iff (c : Char) : Char.toLower c = nlChar ↔ c = nlChar := by
  constructor
  · intro h
    rw [Char.toLower] at h
    by_cases hc : c.toNat ≥ 65 ∧ c.toNat ≤ 90
    · rw [if_pos hc] at h
      have h10 : (Char.ofNat (c.toNat + 32)).toNat = c.toNat + 32 :=
        toNat_Char_ofNat_lt _ (by omega)
      have hnl10 : nlChar.toNat = 10 := by decide
      rw [h] at h10
      omega
    · rwa [if_neg hc] at h
  · intro h
    subst h
    decide

theorem splitOn_eq_splitOnP (a : Char) (l : List Char) :
    l.splitOn a = l.splitOnP (fun c => c == a) := rfl

/-- Case folding commutes with splitting a text into lines. -/
theorem lowerStr_splitOn_nl :
    ∀ s : Str, (lowerStr s).splitOn nlChar = (s.splitOn nlChar).map lowerStr := by
  intro s
  rw [splitOn_eq_splitOnP, splitOn_eq_splitOnP]
  induction s with
  | nil => rfl
  | cons x xs ih =>
    show ((Char.toLower x :: lowerStr xs).splitOnP fun c => c == nlChar) = _
    rw [List.splitOnP_cons, List.splitOnP_cons]
    by_cases hx : x = nlChar
    · have hlx : Char.toLower x = nlChar := (toLower_eq_nl_iff x).mpr hx
      rw [if_pos (by simpa using hlx), if_pos (by simpa using hx)]
      rw [List.map_cons, ih]
      rfl
    · have hlx : ¬Char.toLower x = nlChar := fun h => hx ((toLower_eq_nl_iff x).mp h)
      rw [if_neg (by simpa using hlx), if_neg (by simpa using hx)]
      rw [ih]
      rcases hsplit : (xs.splitOnP fun c => c == nlChar) with _ | ⟨h1, t1⟩
      · exact absurd hsplit (List.splitOnP_ne_nil _ xs)
      · simp [List.modifyHead, lowerStr]

/-- A separator-free part at the start of a list starts its head chunk. -/
theorem noSep_start_head (a : Char) :
    ∀ (kw l : List Char), kw <+: l → (∀ c ∈ kw, c ≠ a) →
      kw <+: ((l.splitOn a).headI) := by
  intro kw
  induction kw with
  | nil => intro l _ _; exact ⟨_, rfl⟩
  | cons c kw' ih =>
    intro l hpre hns
    obtain ⟨t, ht⟩ := hpre
    have hl : l = c :: (kw' ++ t) := by rw [← ht]; rfl
    subst hl
    have hca : ¬(c == a) = true := by
      simpa using hns c (List.mem_cons_self c kw')
    rw [splitOn_eq_splitOnP, List.splitOnP_cons, if_neg hca]
    rcases hsplit : ((kw' ++ t).splitOnP fun c => c == a) with _ | ⟨h1, t1⟩
    · exact absurd hsplit (List.splitOnP_ne_nil _ _)
    · simp only [List.modifyHead, List.headI]
      have ihh : kw' <+: (((kw' ++ t).splitOn a).headI) :=
        ih (kw' ++ t) ⟨t, rfl⟩ (fun c' hc' => hns c' (List.mem_cons_of_mem c hc'))
      rw [splitOn_eq_splitOnP, hsplit] at ihh
      simp only [List.headI] at ihh
      obtain ⟨t2, ht2⟩ := ihh
      exact ⟨t2, by rw [List.cons_append, ht2]⟩

/-- A separator-free part occurring inside a list occurs inside one chunk of
its split. -/
theorem noSep_chunk (a : Char) :
    ∀ (l kw : List Char), kw <:+: l → (∀ c ∈ kw, c ≠ a) →
      ∃ chunk ∈ l.splitOn a, kw <:+: chunk := by
  intro l
  induction l with
  | nil =>
    intro kw hinf _
    obtain ⟨s, t, hst⟩ := hinf
    have hkw : kw = [] := by
      have h1 := List.append_eq_nil.mp hst
      exact (List.append_eq_nil.mp h1.1).2
    subst hkw
    exact ⟨[], by rw [splitOn_eq_splitOnP, List.splitOnP_nil]; exact List.mem_singleton.mpr rfl,
      ⟨[], [], rfl⟩⟩
  | cons b l' ih =>
    intro kw hinf hns
    obtain ⟨s, t, hst⟩ := hinf
    cases s with
    | cons x s' =>
      have hx : x = b ∧ s' ++ kw ++ t = l' := by
        rw [List.cons_append, List.cons_append] at hst
        exact ⟨(List.cons_eq_cons.mp hst).1, (List.cons_eq_cons.mp hst).2⟩
      obtain ⟨chunk, hmem, hck⟩ := ih kw ⟨s', t, hx.2⟩ hns
      by_cases hb : (b == a) = true
      · refine ⟨chunk, ?_, hck⟩
        rw [splitOn_eq_splitOnP, List.splitOnP_cons, if_pos hb]
        exact List.mem_cons_of_mem [] (by rwa [splitOn_eq_splitOnP] at hmem)
      · rw [splitOn_eq_splitOnP] at hmem
        rcases hsplit : (l'.splitOnP fun c => c == a) with _ | ⟨h1, t1⟩
        · exact absurd hsplit (List.splitOnP_ne_nil _ _)
        · rw [hsplit] at hmem
          rcases List.mem_cons.mp hmem with rfl | h2
          · refine ⟨b :: chunk, ?_, ?_⟩
            · rw [splitOn_eq_splitOnP, List.splitOnP_cons, if_neg hb, hsplit]
              simp [List.modifyHead]
            · obtain ⟨s2, t2, h2st⟩ := hck
              exact ⟨b :: s2, t2, by simp [h2st]⟩
          · refine ⟨chunk, ?_, hck⟩
            rw [splitOn_eq_splitOnP, List.splitOnP_cons, if_neg hb, hsplit]
            simp only [List.modifyHead]
            exact List.mem_cons_of_mem _ h2
    | nil =>
      rw [List.nil_append] at hst
      cases kw with
      | nil =>
        obtain ⟨h1, t1, hsplit⟩ : ∃ h1 t1, (b :: l').splitOn a = h1 :: t1 := by
          rcases hh : (b :: l').splitOn a with _ | ⟨h1, t1⟩
          · exact absurd hh (by rw [splitOn_eq_splitOnP]; exact List.splitOnP_ne_nil _ _)
          · exact ⟨h1, t1, rfl⟩
        exact ⟨h1, by rw [hsplit]; exact List.mem_cons_self h1 t1, ⟨[], h1, rfl⟩⟩
      | cons c kw'' =>
        have hcb : c = b ∧ kw'' ++ t = l' := by
          rw [List.cons_append] at hst
          exact ⟨(List.cons_eq_cons.mp hst).1, (List.cons_eq_cons.mp hst).2⟩
        obtain ⟨rfl, hkt⟩ := hcb
        have hca : ¬(c == a) = true := by
          simpa using hns c (List.mem_cons_self c kw'')
        rcases hsplit : (l'.splitOnP fun x => x == a) with _ | ⟨h1, t1⟩
        · exact absurd hsplit (List.splitOnP_ne_nil _ _)
        · have hhead : kw'' <+: h1 := by
            have hns' := noSep_start_head a kw'' l' ⟨t, hkt⟩
              (fun c' hc' => hns c' (List.mem_cons_of_mem c hc'))
            rw [splitOn_eq_splitOnP, hsplit] at hns'
            simpa [List.headI] using hns'
          refine ⟨c :: h1, ?_, ?_⟩
          · rw [splitOn_eq_splitOnP, List.splitOnP_cons, if_neg hca, hsplit]
            simp [List.modifyHead]
          · obtain ⟨t2, ht2⟩ := hhead
            exact ⟨[], t2, by simp [ht2]⟩

/-! ### From the document gate to a matching line -/

/-- When no keyword contains a newline, a document passing the whole-text gate
has a matching line. -/
theorem gate_imp_line (kws : List Str) (content : Str)
    (hnl : ∀ kw ∈ kws, nlChar ∉ kw) (hg : docGate kws content = true) :
    ∃ line ∈ docLines content, lineMatches kws line = true := by
  rw [docGate, List.any_eq_true] at hg
  obtain ⟨kw, hkw, hsub⟩ := hg
  rw [containsSub, decide_eq_true_eq] at hsub
  have hns : ∀ c ∈ kw, c ≠ nlChar := by
    intro c hc he
    exact hnl kw hkw (he ▸ hc)
  obtain ⟨chunk, hmem, hck⟩ := noSep_chunk nlChar (lowerStr content) kw hsub hns
  rw [lowerStr_splitOn_nl] at hmem
  obtain ⟨line, hline, rfl⟩ := List.mem_map.mp hmem
  rw [docLines]
  refine ⟨line, hline, ?_⟩
  rw [lineMatches, List.any_eq_true]
  exact ⟨kw, hkw, by rw [containsSub, decide_eq_true_eq]; exact hck⟩

theorem searchLoop_ne_nil_of_acc (kws : List Str) (k : Int) (ds : List Document)
    (acc : List MatchEntry) (h : acc ≠ []) : searchLoop kws k ds acc ≠ [] := by
  obtain ⟨t, ht⟩ := acc_start_searchLoop kws k ds acc
  rw [← ht]
  intro hcon
  exact h (List.append_eq_nil.mp hcon).1

theorem docMatch_isSome_of_gate (kws : List Str) (d : Document)
    (hnl : ∀ kw ∈ kws, nlChar ∉ kw) (hg : docGate kws d.content = true) :
    ∃ m, docMatch kws d = some m := by
  obtain ⟨line, hline, hm⟩ := gate_imp_line kws d.content hnl hg
  have hsome : ((docLines d.content).findIdx? (lineMatches kws)).isSome = true := by
    rw [List.findIdx?_isSome, List.any_eq_true]
    exact ⟨line, hline, hm⟩
  rw [docMatch]
  rcases hidx : (docLines d.content).findIdx? (lineMatches kws) with _ | i
  · rw [hidx] at hsome
    simp at hsome
  · exact ⟨_, rfl⟩

/-- With newline-free keywords, the loop collects at least one match as soon
as some document passes the gate. -/
theorem searchLoop_nonempty (kws : List Str) (k : Int)
    (hnl : ∀ kw ∈ kws, nlChar ∉ kw) :
    ∀ ds : List Document, (∃ d ∈ ds, docGate kws d.content = true) →
      searchLoop kws k ds [] ≠ [] := by
  intro ds
  induction ds with
  | nil => intro h; simp at h
  | cons d ds ih =>
    intro h
    rw [searchLoop_cons]
    by_cases hgf : docGate kws d.content = false
    · rw [if_pos hgf]
      obtain ⟨d', hd', hg'⟩ := h
      rcases List.mem_cons.mp hd' with rfl | hmem
      · rw [hg'] at hgf; cases hgf
      · exact ih ⟨d', hmem, hg'⟩
    · rw [if_neg hgf]
      have hg : docGate kws d.content = true := by
        cases hh : docGate kws d.content
        · exact absurd hh hgf
        · rfl
      obtain ⟨m, hm⟩ := docMatch_isSome_of_gate kws d hnl hg
      rw [hm]
      by_cases hk : k ≤ (((appendMatch [] (some m)).length : Int))
      · rw [if_pos hk]
        simp [appendMatch]
      · rw [if_neg hk]
        exact searchLoop_ne_nil_of_acc kws k ds _ (by simp [appendMatch])

/-- With a nonpositive limit the loop stops at the first gate-passing
document, so it collects at most one match. -/
theorem searchLoop_zero_short (kws : List Str) (k : Int) (hk : k ≤ 0) :
    ∀ ds : List Document, (searchLoop kws k ds []).length ≤ 1 := by
  intro ds
  induction ds with
  | nil => rw [searchLoop_nil]; decide
  | cons d ds ih =>
    rw [searchLoop_cons]
    by_cases hgf : docGate kws d.content = false
    · rw [if_pos hgf]; exact ih
    · rw [if_neg hgf]
      have hlen := length_appendMatch [] (docMatch kws d)
      have hcheck : k ≤ (((appendMatch [] (docMatch kws d)).length : Int)) := by
        have h0 : (0:Int) ≤ ((appendMatch [] (docMatch kws d)).length : Int) :=
          Int.ofNat_nonneg _
        omega
      rw [if_pos hcheck]
      simp only [List.length_nil] at hlen
      omega

/-- Every collected entry comes from a distinct document of the corpus, in
corpus order, with the first matching line of that document. -/
theorem searchLoop_entries (kws : List Str) (k : Int) :
    ∀ (ds : List Document) (acc : List MatchEntry),
      ∃ t, searchLoop kws k ds acc = acc ++ t ∧
        List.Sublist (t.map MatchEntry.file) (ds.map Document.name) ∧
        ∀ e ∈ t, ∃ d ∈ ds, ∃ i,
          (docLines d.content).findIdx? (lineMatches kws) = some i ∧
          e = ⟨d.name, snippetOf (docLines d.content) i⟩ := by
  intro ds
  induction ds with
  | nil =>
    intro acc
    exact ⟨[], by rw [searchLoop_nil, List.append_nil], List.nil_sublist _, by simp⟩
  | cons d ds ih =>
    intro acc
    rw [searchLoop_cons]
    by_cases hgf : docGate kws d.content = false
    · rw [if_pos hgf]
      obtain ⟨t, ht, hsub, hsrc⟩ := ih acc
      refine ⟨t, ht, hsub.cons _, ?_⟩
      intro e he
      obtain ⟨d', hd', rest⟩ := hsrc e he
      exact ⟨d', List.mem_cons_of_mem d hd', rest⟩
    · rw [if_neg hgf]
      rcases hm : docMatch kws d with _ | m
      · by_cases hk : k ≤ ((appendMatch acc none).length : Int)
        · rw [if_pos hk]
          exact ⟨[], by simp [appendMatch], List.nil_sublist _, by simp⟩
        · rw [if_neg hk]
          obtain ⟨t, ht, hsub, hsrc⟩ := ih acc
          refine ⟨t, by simpa [appendMatch] using ht, hsub.cons _, ?_⟩
          intro e he
          obtain ⟨d', hd', rest⟩ := hsrc e he
          exact ⟨d', List.mem_cons_of_mem d hd', rest⟩
      · have hmval : ∃ i, (docLines d.content).findIdx? (lineMatches kws) = some i ∧
            m = ⟨d.name, snippetOf (docLines d.content) i⟩ := by
          rw [docMatch] at hm
          rcases hidx : (docLines d.content).findIdx? (lineMatches kws) with _ | i
          · rw [hidx] at hm; cases hm
          · rw [hidx] at hm
            cases hm
            exact ⟨i, rfl, rfl⟩
        by_cases hk : k ≤ ((appendMatch acc (some m)).length : Int)
        · rw [if_pos hk]
          refine ⟨[m], by simp [appendMatch], ?_, ?_⟩
          · obtain ⟨i, hi, hmv⟩ := hmval
            subst hmv
            simp only [List.map_cons, List.map_nil]
            exact (List.nil_sublist _).cons₂ _
          · intro e he
            rcases List.mem_singleton.mp he with rfl
            obtain ⟨i, hi, hmv⟩ := hmval
            exact ⟨d, List.mem_cons_self d ds, i, hi, hmv⟩
        · rw [if_neg hk]
          obtain ⟨t, ht, hsub, hsrc⟩ := ih (acc ++ [m])
          refine ⟨m :: t, ?_, ?_, ?_⟩
          · rw [← List.singleton_append, ← List.append_assoc]
            simpa [appendMatch] using ht
          · obtain ⟨i, hi, hmv⟩ := hmval
            subst hmv
            exact hsub.cons₂ _
          · intro e he
            rcases List.mem_cons.mp he with rfl | h2
            · obtain ⟨i, hi, hmv⟩ := hmval
              exact ⟨d, List.mem_cons_self d ds, i, hi, hmv⟩
            · obtain ⟨d', hd', rest⟩ := hsrc e h2
              exact ⟨d', List.mem_cons_of_mem d hd', rest⟩

/-! ### Claim theorems -/

/-- C1: for every query and every limit k ≥ 1, the search returns at most k
entries — the collection loop never gathers more than k matches, and the
assembler slice `results[:max_results]` is again at most k long. -/
theorem search_respects_limit (corpus : List Document) (q : Str) (k : Int) (hk : 1 ≤ k) :
    ((searchResults corpus q k).length : Int) ≤ k ∧
    ((pySliceTo (searchResults corpus q k) k).length : Int) ≤ k := by
  have hloop : ((searchResults corpus q k).length : Int) ≤ k :=
    searchLoop_length_le (tokenize q) k corpus [] (by simpa using hk)
  refine ⟨hloop, ?_⟩
  rw [pySliceTo, if_pos (by omega : (0:Int) ≤ k)]
  rw [List.length_take]
  have h2 : (k.toNat : Int) = k := Int.toNat_of_nonneg (by omega)
  omega

theorem search_respects_limit_witness :
    (1:Int) ≤ 1 ∧ (((searchResults [] ("abc".toList) 1).length : Int) ≤ 1 ∧
      ((pySliceTo (searchResults [] ("abc".toList) 1) 1).length : Int) ≤ 1) :=
  ⟨by decide, search_respects_limit [] ("abc".toList) 1 (by decide)⟩

/-- C2: early termination — if a prefix of the corpus already yields the k
requested matches (k ≥ 1), searching the corpus extended by any further
documents gives the same result list, so the extra documents can never
influence the outcome (in the code they are not even read). -/
theorem search_early_termination (q : Str) (k : Int) (hk : 1 ≤ k)
    (pre suf : List Document)
    (hfull : ((searchResults pre q k).length : Int) = k) :
    searchResults (pre ++ suf) q k = searchResults pre q k := by
  simp only [searchResults] at hfull ⊢
  exact searchLoop_stops (tokenize q) k pre [] suf (by simpa using hk) (by omega)

theorem search_early_termination_witness :
    ((searchResults [⟨"a.md".toList, "Symbols uses tokens.".toList⟩]
        ("tokens".toList) 1).length : Int) = 1 ∧
    searchResults ([⟨"a.md".toList, "Symbols uses tokens.".toList⟩] ++
        [⟨"b.md".toList, "more tokens here".toList⟩]) ("tokens".toList) 1 =
      searchResults [⟨"a.md".toList, "Symbols uses tokens.".toList⟩] ("tokens".toList) 1 :=
  ⟨by decide, search_early_termination ("tokens".toList) 1 (by decide) _ _ (by decide)⟩

/-- C3: tokenization always yields a nonempty keyword list; the empty query
yields exactly the single empty keyword; when no split token survives the
length filter the keyword list is exactly the singleton of the case-folded
raw query, and otherwise it is the filtered token list, each of whose
elements is longer than 2, whitespace-free, and occurs inside the
case-folded query. -/
theorem tokenize_spec (q : Str) :
    tokenize q ≠ [] ∧
    tokenize ([] : Str) = [[]] ∧
    (wsTokens q = [] → tokenize q = [lowerStr q]) ∧
    (wsTokens q ≠ [] → tokenize q = wsTokens q) ∧
    (∀ kw ∈ wsTokens q,
      2 < kw.length ∧ kw <:+: lowerStr q ∧ ∀ c ∈ kw, c.isWhitespace = false) := by
  refine ⟨?_, by decide, ?_, ?_, ?_⟩
  · by_cases h : wsTokens q = []
    · rw [tokenize, if_pos h]; exact List.cons_ne_nil _ _
    · rw [tokenize, if_neg h]; exact h
  · intro h; rw [tokenize, if_pos h]
  · intro h; rw [tokenize, if_neg h]
  · intro kw hkw
    rw [wsTokens] at hkw
    obtain ⟨hmem, hlen⟩ := List.mem_filter.mp hkw
    refine ⟨by simpa using hlen, chunk_within_of_mem _ kw hmem, ?_⟩
    exact chunk_no_sep _ kw hmem

theorem tokenize_spec_witness :
    tokenize ("Hello World".toList) = wsTokens ("Hello World".toList) ∧
    (2 < "hello".toList.length ∧ "hello".toList <:+: lowerStr ("Hello World".toList) ∧
      ∀ c ∈ "hello".toList, c.isWhitespace = false) :=
  ⟨(tokenize_spec ("Hello World".toList)).2.2.2.1 (by decide),
   (tokenize_spec ("Hello World".toList)).2.2.2.2 ("hello".toList) (by decide)⟩

/-- C4: when no document's case-folded text contains any derived keyword, the
search returns the literal no-results message with the original query
embedded verbatim, not a structured list. -/
theorem search_no_results_message (corpus : List Document) (q : Str) (k : Int)
    (h : ∀ d ∈ corpus, docGate (tokenize q) d.content = false) :
    search_symbols_docs corpus q k =
      "No results found for ".toList ++ [squote] ++ q ++ [squote] ++
        ". Try a different search term.".toList := by
  have hempty : searchResults corpus q k = [] :=
    searchLoop_of_no_gate (tokenize q) k corpus [] h
  simp only [search_symbols_docs, if_pos hempty]
  rfl

theorem search_no_results_message_witness :
    (∀ d ∈ [(⟨"a.md".toList, "hello there".toList⟩ : Document)],
      docGate (tokenize ("zzz".toList)) d.content = false) ∧
    search_symbols_docs [⟨"a.md".toList, "hello there".toList⟩] ("zzz".toList) 3 =
      "No results found for ".toList ++ [squote] ++ "zzz".toList ++ [squote] ++
        ". Try a different search term.".toList :=
  ⟨by decide, search_no_results_message _ _ 3 (by decide)⟩

/-- C5: for a matched line index i inside the document, the snippet is exactly
the lines with indices from max(0, i-2) (natural subtraction i-2) up to but
excluding min(lineCount, i+20), joined with newlines — clipped at the
document boundaries, with no wraparound and no padding. -/
theorem snippet_window (lines : List Str) (i : Nat) (h : i < lines.length) :
    snippetOf lines i =
      List.intercalate [nlChar]
        ((List.range' (i - 2) (min lines.length (i + 20) - (i - 2))).map
          (fun j => lines.getD j [])) := by
  rw [snippetOf]
  congr 1
  apply List.ext_getElem
  · simp [List.length_drop, List.length_take]
  · intro n h1 h2
    have hn : i - 2 + n < min lines.length (i + 20) := by
      simp [List.length_drop, List.length_take] at h1
      omega
    have hlt : i - 2 + n < lines.length := by omega
    rw [List.getElem_drop, List.getElem_take]
    rw [List.getElem_map, List.getElem_range', Nat.one_mul]
    rw [List.getD_eq_getElem lines [] hlt]

theorem snippet_window_witness :
    1 < (docLines ("# Intro\nSymbols uses tokens.\nMore text".toList)).length ∧
    snippetOf (docLines ("# Intro\nSymbols uses tokens.\nMore text".toList)) 1 =
      List.intercalate [nlChar]
        ((List.range' (1 - 2)
            (min (docLines ("# Intro\nSymbols uses tokens.\nMore text".toList)).length (1 + 20) -
              (1 - 2))).map
          (fun j => (docLines ("# Intro\nSymbols uses tokens.\nMore text".toList)).getD j [])) :=
  ⟨by decide, snippet_window _ 1 (by decide)⟩

/-- C6 counterexample: with the query consisting of two short tokens joined by
a newline, the fallback keyword is the whole query including its newline; the
document with the same text passes the whole-text gate, yet no single line
contains the keyword — so a gate-passing document need not have a matching
line, contrary to the claim. -/
theorem gate_without_line_cex :
    docGate (tokenize ("a\nb".toList)) ("a\nb".toList) = true ∧
    ∀ line ∈ docLines ("a\nb".toList),
      lineMatches (tokenize ("a\nb".toList)) line = false := by
  decide

/-- C6 amended: if no keyword contains a newline character (true of every
keyword produced by whitespace splitting, though not always of the fallback
whole-query keyword), then a document passing the gate has at least one
matching line; and a gate-passing document in which no line matches is
skipped, contributing no match to the loop. -/
theorem gate_imp_line_amended (kws : List Str) (d : Document) (k : Int)
    (ds : List Document) (acc : List MatchEntry) :
    ((∀ kw ∈ kws, nlChar ∉ kw) → docGate kws d.content = true →
      ∃ line ∈ docLines d.content, lineMatches kws line = true) ∧
    (docMatch kws d = none →
      searchLoop kws k (d :: ds) acc = acc ∨
        searchLoop kws k (d :: ds) acc = searchLoop kws k ds acc) := by
  constructor
  · intro hnl hg
    exact gate_imp_line kws d.content hnl hg
  · intro hnone
    rw [searchLoop_cons]
    by_cases hgf : docGate kws d.content = false
    · rw [if_pos hgf]
      exact Or.inr rfl
    · rw [if_neg hgf, hnone]
      by_cases hk : k ≤ ((appendMatch acc none).length : Int)
      · rw [if_pos hk]
        exact Or.inl rfl
      · rw [if_neg hk]
        exact Or.inr rfl

theorem gate_imp_line_amended_witness :
    ∃ line ∈ docLines ("Symbols uses tokens.".toList),
      lineMatches (tokenize ("tokens".toList)) line = true :=
  (gate_imp_line_amended (tokenize ("tokens".toList))
    ⟨"a.md".toList, "Symbols uses tokens.".toList⟩ 3 [] []).1 (by decide) (by decide)

/-- C7: `get_project_rules` returns the primary instructions document when it
exists, the fallback document's content when only the fallback exists, and a
not-found sentinel naming the fallback's path when both are absent; it is a
total function, so no error is raised in any case. -/
theorem project_rules_fallback (fs : SkillsFs) :
    (∀ c, fs.file agentFile = some c → get_project_rules fs = c) ∧
    (∀ c, fs.file agentFile = none → fs.file claudeFile = some c → get_project_rules fs = c) ∧
    (fs.file agentFile = none → fs.file claudeFile = none →
      get_project_rules fs =
        "Skill file ".toList ++ [squote] ++ claudeFile ++ [squote] ++
          " not found at ".toList ++ (fs.skillsDir ++ [sepChar] ++ claudeFile)) := by
  refine ⟨?_, ?_, ?_⟩
  · intro c h
    simp [get_project_rules, _load_agent_instructions, h]
  · intro c h1 h2
    simp [get_project_rules, _load_agent_instructions, _read_skill, h1, h2]
  · intro h1 h2
    simp [get_project_rules, _load_agent_instructions, _read_skill, pathOf, h1, h2]

theorem project_rules_fallback_witness :
    get_project_rules fsNone =
      "Skill file ".toList ++ [squote] ++ claudeFile ++ [squote] ++
        " not found at ".toList ++ (fsNone.skillsDir ++ [sepChar] ++ claudeFile) :=
  (project_rules_fallback fsNone).2.2 rfl rfl

/-- C8: with pairwise distinct document names, each document contributes at
most one entry to the result (distinct file names), and each entry records
the first (lowest-index) line of its document whose case-folded text contains
a keyword, with the snippet extracted at exactly that index. -/
theorem one_match_per_document (corpus : List Document) (q : Str) (k : Int)
    (hnames : (corpus.map Document.name).Nodup) :
    ((searchResults corpus q k).map MatchEntry.file).Nodup ∧
    ∀ e ∈ searchResults corpus q k, ∃ d ∈ corpus, e.file = d.name ∧
      ∃ i, ∃ hlt : i < (docLines d.content).length,
        lineMatches (tokenize q) ((docLines d.content).get ⟨i, hlt⟩) = true ∧
        (∀ j (hj : j < i), lineMatches (tokenize q)
          ((docLines d.content).get ⟨j, Nat.lt_trans hj hlt⟩) = false) ∧
        e.snippet = snippetOf (docLines d.content) i := by
  obtain ⟨t, ht, hsub, hsrc⟩ := searchLoop_entries (tokenize q) k corpus []
  have hres : searchResults corpus q k = t := by
    rw [searchResults, ht, List.nil_append]
  constructor
  · rw [hres]
    exact hnames.sublist hsub
  · intro e he
    rw [hres] at he
    obtain ⟨d, hd, i, hi, hev⟩ := hsrc e he
    obtain ⟨hlt, hp, hprev⟩ := List.findIdx?_eq_some_iff_getElem.mp hi
    refine ⟨d, hd, by rw [hev], i, hlt, ?_, ?_, by rw [hev]⟩
    · rw [List.get_eq_getElem]
      exact hp
    · intro j hj
      have h5 := hprev j hj
      simp only [Bool.not_eq_true] at h5
      rw [List.get_eq_getElem]
      exact h5

theorem one_match_per_document_witness :
    ((searchResults [⟨"a.md".toList, "Symbols uses tokens.".toList⟩,
        ⟨"b.md".toList, "more tokens".toList⟩] ("tokens".toList) 5).map MatchEntry.file).Nodup :=
  (one_match_per_document [⟨"a.md".toList, "Symbols uses tokens.".toList⟩,
    ⟨"b.md".toList, "more tokens".toList⟩] ("tokens".toList) 5 (by decide)).1

/-- C9: `_read_skill` is total, so it never raises: it returns the file's full
text when the file exists and otherwise the sentinel message naming the
missing path, which the caller receives as an ordinary textual result. -/
theorem read_skill_total (fs : SkillsFs) (filename : Str) :
    (∀ c, fs.file filename = some c → _read_skill fs filename = c) ∧
    (fs.file filename = none →
      _read_skill fs filename =
        "Skill file ".toList ++ [squote] ++ filename ++ [squote] ++
          " not found at ".toList ++ (fs.skillsDir ++ [sepChar] ++ filename)) := by
  constructor
  · intro c h
    simp [_read_skill, h]
  · intro h
    simp [_read_skill, pathOf, h]

theorem read_skill_total_witness :
    _read_skill fsNone ("QUICKSTART.md".toList) =
      "Skill file ".toList ++ [squote] ++ "QUICKSTART.md".toList ++ [squote] ++
        " not found at ".toList ++ (fsNone.skillsDir ++ [sepChar] ++ "QUICKSTART.md".toList) :=
  (read_skill_total fsNone ("QUICKSTART.md".toList)).2 rfl

/-- C10 counterexample: with limit 0 and the corpus document "a\nb" searched
for the query "a\nb" (whose only keyword is the fallback containing a
newline), the document passes the gate yet the search returns the no-results
message, not the serialized empty list — so the claim's implication and its
"only when no document passes the gate" clause both fail. -/
theorem empty_list_output_cex :
    (∃ d ∈ [(⟨"a.md".toList, "a\nb".toList⟩ : Document)],
      docGate (tokenize ("a\nb".toList)) d.content = true) ∧
    search_symbols_docs [⟨"a.md".toList, "a\nb".toList⟩] ("a\nb".toList) 0 =
      noResultsMsg ("a\nb".toList) ∧
    search_symbols_docs [⟨"a.md".toList, "a\nb".toList⟩] ("a\nb".toList) 0 ≠ "[]".toList := by
  decide

/-- C10 amended: when the limit is zero or negative, if some corpus document
passes the gate and no derived keyword contains a newline (which guarantees
the first gate-passing document also has a matching line), the search returns
the JSON serialization of the empty list; without that guarantee the
gate-passing document may yield no match and the no-results message is
produced instead. -/
theorem empty_list_output_amended (corpus : List Document) (q : Str) (k : Int)
    (hk : k ≤ 0)
    (hnl : ∀ kw ∈ tokenize q, nlChar ∉ kw)
    (hgate : ∃ d ∈ corpus, docGate (tokenize q) d.content = true) :
    search_symbols_docs corpus q k = "[]".toList := by
  have hne : searchResults corpus q k ≠ [] :=
    searchLoop_nonempty (tokenize q) k hnl corpus hgate
  have hshort : (searchResults corpus q k).length ≤ 1 :=
    searchLoop_zero_short (tokenize q) k hk corpus
  rw [search_symbols_docs, if_neg hne]
  have hslice : pySliceTo (searchResults corpus q k) k = [] := by
    rw [pySliceTo]
    by_cases h0 : (0:Int) ≤ k
    · rw [if_pos h0]
      have hz : k = 0 := le_antisymm hk h0
      subst hz
      rfl
    · rw [if_neg h0]
      have h1 : 1 ≤ (-k).toNat := by omega
      have h2 : (searchResults corpus q k).length - (-k).toNat = 0 := by omega
      rw [h2]
      rfl
  rw [hslice]
  rfl

theorem empty_list_output_amended_witness :
    search_symbols_docs [⟨"a.md".toList, "Symbols uses tokens.".toList⟩] ("tokens".toList) 0 =
      "[]".toList :=
  empty_list_output_amended [⟨"a.md".toList, "Symbols uses tokens.".toList⟩] ("tokens".toList) 0
    (by decide) (by decide) (by decide)

end SymbolsMcp
